import Mathlib

/-!
Shallow embedding of `src/utils/datatransform.ts` (class `Transform`) of the
fabric-mock-stub repository, together with models of the JavaScript runtime
primitives the class relies on (`JSON.stringify`, `JSON.parse`, `parseInt`,
`Buffer`/`Uint8Array` string conversion).

Modelling conventions:
* JavaScript values are the inductive type `Jval`.  JS numbers are modelled as
  arbitrary-precision integers (`Int`); none of the verified properties depends
  on floating-point behaviour, and fraction/exponent number literals are
  outside the model.
* A `Buffer` is modelled by its UTF-8 text content (a `String`): every buffer
  this module creates is built from a string with `Buffer.from`, and every
  buffer it consumes is read back with `toString`, which are mutually inverse.
  A raw `Uint8Array` is modelled as its byte list (`List Nat`).
* Fallible JS code returns `Except JsError`; `logger.error` calls are made
  explicit as a list of (message, context) pairs in the result.
* Async iterators are modelled by a script: the list of outcomes of the
  successive `next()` calls.
-/

/-- A JavaScript runtime value, restricted to the shapes `Transform` handles:
`null`, `undefined`, booleans, numbers (modelled as `Int`), strings, arrays,
plain objects (ordered key/value lists), `Date` (by its epoch-millisecond
time), `Buffer` (by its UTF-8 text content) and raw `Uint8Array` (by its
bytes). -/
inductive Jval where
  | vnull
  | vundef
  | vbool (b : Bool)
  | vnum (n : Int)
  | vstr (s : String)
  | varr (xs : List Jval)
  | vobj (kvs : List (String × Jval))
  | vdate (ms : Int)
  | vbuf (s : String)
  | vu8arr (bytes : List Nat)

/-- The decimal digit characters. -/
def digitChar : Nat → Char
  | 0 => '0' | 1 => '1' | 2 => '2' | 3 => '3' | 4 => '4'
  | 5 => '5' | 6 => '6' | 7 => '7' | 8 => '8' | _ => '9'

def natCharsAux : Nat → Nat → List Char
  | 0, _ => []
  | fuel + 1, n =>
    if n < 10 then [digitChar n] else natCharsAux fuel (n / 10) ++ [digitChar (n % 10)]

/-- Decimal rendering of a natural number (the digits of `n`, most
significant first), as produced by JavaScript number-to-string conversion on
non-negative integers.  Fuelled so that it is structurally recursive;
`n + 1` units of fuel always suffice since `n / 10 < n`. -/
def natChars (n : Nat) : List Char := natCharsAux (n + 1) n

/-- Decimal rendering of an integer, as produced by JavaScript
number-to-string conversion on integers. -/
def intChars (i : Int) : List Char :=
  if i < 0 then '-' :: natChars i.natAbs else natChars i.toNat

/-- Value of a list of decimal digit characters, most significant first. -/
def digitsToNat (ds : List Char) : Nat :=
  ds.foldl (fun a c => 10 * a + (c.toNat - 48)) 0

/-- Lower-case hexadecimal digit characters, as used by `JSON.stringify`'s
`\u00XX` escapes. -/
def hexChar : Nat → Char
  | 0 => '0' | 1 => '1' | 2 => '2' | 3 => '3' | 4 => '4'
  | 5 => '5' | 6 => '6' | 7 => '7' | 8 => '8' | 9 => '9'
  | 10 => 'a' | 11 => 'b' | 12 => 'c' | 13 => 'd' | 14 => 'e' | _ => 'f'

/-- Numeric value of a hexadecimal digit character, any case. -/
def hexVal? (c : Char) : Option Nat :=
  if 48 ≤ c.toNat ∧ c.toNat ≤ 57 then some (c.toNat - 48)
  else if 97 ≤ c.toNat ∧ c.toNat ≤ 102 then some (c.toNat - 87)
  else if 65 ≤ c.toNat ∧ c.toNat ≤ 70 then some (c.toNat - 55)
  else none

/-- The JSON insignificant whitespace characters. -/
def isWsChar (c : Char) : Bool :=
  c = ' ' || c = '\t' || c = '\n' || c = '\r'

/-- `JSON.stringify`'s escaping of one character inside a string literal. -/
def escapeChar (c : Char) : List Char :=
  if c = '"' then ['\\', '"']
  else if c = '\\' then ['\\', '\\']
  else if c = Char.ofNat 8 then ['\\', 'b']
  else if c = Char.ofNat 12 then ['\\', 'f']
  else if c = '\n' then ['\\', 'n']
  else if c = '\r' then ['\\', 'r']
  else if c = '\t' then ['\\', 't']
  else if c.toNat < 32 then
    ['\\', 'u', '0', '0', hexChar (c.toNat / 16), hexChar (c.toNat % 16)]
  else [c]

/-- Escape every character of a string body, `JSON.stringify` style. -/
def escList : List Char → List Char
  | [] => []
  | c :: cs => escapeChar c ++ escList cs

/-- A JSON string literal for `s`: opening quote, escaped body, closing
quote. -/
def quoteChars (s : String) : List Char :=
  '"' :: escList s.data ++ ['"']

/-- Join rendered pieces with commas, as JSON array/object bodies are. -/
def joinComma : List (List Char) → List Char
  | [] => []
  | [e] => e
  | e :: es => e ++ ',' :: joinComma es

/-- UTF-8 encoding of one character. -/
def utf8EncodeChar (c : Char) : List Nat :=
  let n := c.toNat
  if n < 128 then [n]
  else if n < 2048 then [192 + n / 64, 128 + n % 64]
  else if n < 65536 then [224 + n / 4096, 128 + (n / 64) % 64, 128 + n % 64]
  else [240 + n / 262144, 128 + (n / 4096) % 64, 128 + (n / 64) % 64, 128 + n % 64]

/-- UTF-8 encoding of a string: the bytes a `Buffer` made from it holds. -/
def utf8Encode (s : String) : List Nat :=
  s.data.foldr (fun c acc => utf8EncodeChar c ++ acc) []

/-- The own enumerable properties of a `Buffer`/`Uint8Array` holding `bytes`:
its indices (as string keys) mapped to the byte values, in index order.  This
is what lodash `mapValues` and `JSON.stringify` see when handed a typed
array. -/
def byteEntries (bytes : List Nat) : List (String × Jval) :=
  ((List.range bytes.length).zip bytes).map
    (fun p => (String.mk (natChars p.1), Jval.vnum (Int.ofNat p.2)))

/-- `JSON.stringify`'s rendering of a list of bytes as a JSON array of
numbers, used by `Buffer.prototype.toJSON`. -/
def bytesArrayChars (bytes : List Nat) : List Char :=
  '[' :: joinComma (bytes.map (fun b => natChars b)) ++ [']']

mutual

/-- Model of `JSON.stringify`.  Returns `none` exactly when JavaScript's
`JSON.stringify` returns `undefined` (top-level `undefined`).  A `Date` is
rendered through its `toJSON` (an ISO date string, abstracted here as a
quoted date-tagged literal, since `Transform` always normalizes dates away
before stringification and no verified property touches it); a `Buffer`
through its `toJSON`
(`{"type":"Buffer","data":[...]}`); a raw `Uint8Array` as an object keyed by
its indices. -/
def stringifyChars : Jval → Option (List Char)
  | .vnull => some ['n', 'u', 'l', 'l']
  | .vundef => none
  | .vbool true => some ['t', 'r', 'u', 'e']
  | .vbool false => some ['f', 'a', 'l', 's', 'e']
  | .vnum n => some (intChars n)
  | .vstr s => some (quoteChars s)
  | .varr xs => some ('[' :: joinComma (arrElemsChars xs) ++ [']'])
  | .vobj kvs => some ('\x7b' :: joinComma (objEntriesChars kvs) ++ ['\x7d'])
  | .vdate ms => some (quoteChars (String.mk ('d' :: 'a' :: 't' :: 'e' :: intChars ms)))
  | .vbuf s =>
      some ('\x7b' :: (quoteChars "type" ++ ':' :: quoteChars "Buffer" ++
        ',' :: quoteChars "data" ++ ':' :: bytesArrayChars (utf8Encode s)) ++ ['\x7d'])
  | .vu8arr bytes =>
      some ('\x7b' :: joinComma ((byteEntries bytes).map
        (fun kv => quoteChars kv.1 ++ ':' ::
          (match kv.2 with | .vnum n => intChars n | _ => []))) ++ ['\x7d'])
termination_by structural v => v

/-- Rendered elements of a JSON array body; an element whose stringification
is `undefined` is rendered as `null`, as `JSON.stringify` does. -/
def arrElemsChars : List Jval → List (List Char)
  | [] => []
  | x :: xs =>
    (match stringifyChars x with
      | some s => s
      | none => ['n', 'u', 'l', 'l']) :: arrElemsChars xs
termination_by structural v => v

/-- Rendered members of a JSON object body; a member whose value
stringification is `undefined` is dropped, as `JSON.stringify` does. -/
def objEntriesChars : List (String × Jval) → List (List Char)
  | [] => []
  | (k, v) :: rest =>
    match stringifyChars v with
    | some sv => (quoteChars k ++ ':' :: sv) :: objEntriesChars rest
    | none => objEntriesChars rest
termination_by structural v => v

end

/-- `JSON.stringify` as a string-valued function. -/
def stringify (v : Jval) : Option String :=
  (stringifyChars v).map String.mk

/-- Drop leading JSON whitespace. -/
def skipWs (cs : List Char) : List Char := cs.dropWhile isWsChar

/-- Match an exact literal sequence of characters, returning the remainder. -/
def expects : List Char → List Char → Option (List Char)
  | [], cs => some cs
  | _ :: _, [] => none
  | l :: ls, c :: cs => if c = l then expects ls cs else none

/-- Parse the body of a JSON string literal (the part after the opening
quote) up to and including the closing quote, undoing the escapes
`JSON.parse` accepts.  Returns the decoded characters and the remainder. -/
def parseStringBody : List Char → Option (List Char × List Char)
  | [] => none
  | c :: rest =>
    if c = '"' then some ([], rest)
    else if c = '\\' then
      match rest with
      | [] => none
      | e :: rest2 =>
        if e = '"' then (parseStringBody rest2).map (fun p => ('"' :: p.1, p.2))
        else if e = '\\' then (parseStringBody rest2).map (fun p => ('\\' :: p.1, p.2))
        else if e = '/' then (parseStringBody rest2).map (fun p => ('/' :: p.1, p.2))
        else if e = 'b' then (parseStringBody rest2).map (fun p => (Char.ofNat 8 :: p.1, p.2))
        else if e = 'f' then (parseStringBody rest2).map (fun p => (Char.ofNat 12 :: p.1, p.2))
        else if e = 'n' then (parseStringBody rest2).map (fun p => ('\n' :: p.1, p.2))
        else if e = 'r' then (parseStringBody rest2).map (fun p => ('\r' :: p.1, p.2))
        else if e = 't' then (parseStringBody rest2).map (fun p => ('\t' :: p.1, p.2))
        else if e = 'u' then
          match rest2 with
          | a :: b :: c2 :: d :: rest3 =>
            (match hexVal? a, hexVal? b, hexVal? c2, hexVal? d with
             | some ha, some hb, some hc, some hd =>
               (parseStringBody rest3).map
                 (fun p => (Char.ofNat (((ha * 16 + hb) * 16 + hc) * 16 + hd) :: p.1, p.2))
             | _, _, _, _ => none)
          | _ => none
        else none
    else if c.toNat < 32 then none
    else (parseStringBody rest).map (fun p => (c :: p.1, p.2))
termination_by structural cs => cs

/-- Parse a run of decimal digits starting at `c` (known to be a digit),
rejecting the leading zeros JSON forbids.  Returns the value and the
remainder. -/
def parseNat (c : Char) (cs : List Char) : Option (Nat × List Char) :=
  let ds := (c :: cs).takeWhile Char.isDigit
  let rest := (c :: cs).dropWhile Char.isDigit
  if 1 < ds.length ∧ ds.head? = some '0' then none
  else some (digitsToNat ds, rest)

mutual

/-- Model of `JSON.parse` (one value), fuelled recursive descent.  Accepts
the JSON grammar over the modelled values: literals, integer numbers (with
JSON's leading-zero restriction; fraction/exponent forms are outside the
model), strings with escapes, arrays and objects, with insignificant
whitespace.  Returns the value and the unconsumed remainder. -/
def parseVal : Nat → List Char → Option (Jval × List Char)
  | 0, _ => none
  | Nat.succ fuel, cs0 =>
    match skipWs cs0 with
    | [] => none
    | c :: cs =>
      if c = 'n' then (expects ['u', 'l', 'l'] cs).map (fun r => (Jval.vnull, r))
      else if c = 't' then (expects ['r', 'u', 'e'] cs).map (fun r => (Jval.vbool true, r))
      else if c = 'f' then (expects ['a', 'l', 's', 'e'] cs).map (fun r => (Jval.vbool false, r))
      else if c = '"' then (parseStringBody cs).map (fun p => (Jval.vstr (String.mk p.1), p.2))
      else if c = '[' then
        match skipWs cs with
        | [] => none
        | c2 :: r =>
          if c2 = ']' then some (Jval.varr [], r)
          else (parseElems fuel (c2 :: r)).map (fun p => (Jval.varr p.1, p.2))
      else if c = '\x7b' then
        match skipWs cs with
        | [] => none
        | c2 :: r =>
          if c2 = '\x7d' then some (Jval.vobj [], r)
          else (parseMembers fuel (c2 :: r)).map (fun p => (Jval.vobj p.1, p.2))
      else if c = '-' then
        match cs with
        | [] => none
        | c2 :: cs2 =>
          if c2.isDigit then
            (parseNat c2 cs2).map (fun p => (Jval.vnum (-(p.1 : Int)), p.2))
          else none
      else if c.isDigit then (parseNat c cs).map (fun p => (Jval.vnum (p.1 : Int), p.2))
      else none
termination_by structural fuel cs => fuel

/-- Parse the non-empty element list of a JSON array, up to and including the
closing bracket. -/
def parseElems : Nat → List Char → Option (List Jval × List Char)
  | 0, _ => none
  | Nat.succ fuel, cs =>
    match parseVal fuel cs with
    | none => none
    | some (v, rest) =>
      match skipWs rest with
      | ',' :: rest2 => (parseElems fuel rest2).map (fun p => (v :: p.1, p.2))
      | ']' :: rest2 => some ([v], rest2)
      | _ => none
termination_by structural fuel cs => fuel

/-- Parse the non-empty member list of a JSON object, up to and including the
closing brace. -/
def parseMembers : Nat → List Char → Option (List (String × Jval) × List Char)
  | 0, _ => none
  | Nat.succ fuel, cs =>
    match skipWs cs with
    | '"' :: rest =>
      (match parseStringBody rest with
       | none => none
       | some (kcs, rest2) =>
         match skipWs rest2 with
         | ':' :: rest3 =>
           (match parseVal fuel rest3 with
            | none => none
            | some (v, rest4) =>
              match skipWs rest4 with
              | ',' :: rest5 =>
                (parseMembers fuel rest5).map (fun p => ((String.mk kcs, v) :: p.1, p.2))
              | '\x7d' :: rest5 => some ([(String.mk kcs, v)], rest5)
              | _ => none)
         | _ => none)
    | _ => none
termination_by structural fuel cs => fuel

end

/-- Model of `JSON.parse` on a whole text: parse one value and require only
whitespace to remain; `none` models a thrown `SyntaxError`. -/
def parseJson (s : String) : Option Jval :=
  match parseVal (s.length + 1) s.data with
  | some (v, rest) => if skipWs rest = [] then some v else none
  | none => none

/-- lodash `_.isDate`. -/
def isDateV : Jval → Bool
  | .vdate _ => true
  | _ => false

/-- lodash `_.isString`. -/
def isStringV : Jval → Bool
  | .vstr _ => true
  | _ => false

mutual

/-- `Transform.normalizePayload` (datatransform.ts:229-246).  The branch
order mirrors the source's `_.isDate` / `_.isString` / `_.isArray` /
`_.isObject` chain; anything else falls through unchanged.  A `Buffer` or a
raw `Uint8Array` is not a lodash array but is a lodash object, so the source
maps `_.mapValues` over its own enumerable keys — its indices — whose values
are (already-normal) byte numbers; `byteEntries` is that index mapping. -/
def normalizePayload : Jval → Jval
  | .vdate ms => .vnum ms
  | .vstr s => .vstr s
  | .varr xs => .varr (normalizeList xs)
  | .vobj kvs => .vobj (normalizeKVs kvs)
  | .vbuf s => .vobj (byteEntries (utf8Encode s))
  | .vu8arr bytes => .vobj (byteEntries bytes)
  | v => v
termination_by structural v => v

/-- `_.map(value, v => this.normalizePayload(v))` over an array. -/
def normalizeList : List Jval → List Jval
  | [] => []
  | x :: xs => normalizePayload x :: normalizeList xs
termination_by structural v => v

/-- `_.mapValues(value, v => this.normalizePayload(v))` over a plain
object. -/
def normalizeKVs : List (String × Jval) → List (String × Jval)
  | [] => []
  | (k, v) :: kvs => (k, normalizePayload v) :: normalizeKVs kvs
termination_by structural v => v

end

/-- Errors thrown by the modelled JavaScript code. -/
inductive JsError where
  | typeError
  | err (msg : String)
  deriving Repr, DecidableEq

/-- `Transform.serialize` (datatransform.ts:21-29).
`value instanceof Buffer` → returned unchanged;
`_.isDate(value)` → `Buffer.from(normalizePayload(value).toString())`, and
`normalizePayload` of a date is its epoch-millisecond number, whose
`toString` is its decimal rendering;
`_.isString(value)` → `Buffer.from(normalizePayload(value).toString())`, and
`normalizePayload` of a string is the string itself;
otherwise `Buffer.from(JSON.stringify(normalizePayload(value)))`, which
throws a `TypeError` when `JSON.stringify` returns `undefined`
(`Buffer.from(undefined)`). -/
def serialize (value : Jval) : Except JsError String :=
  match value with
  | .vbuf b => .ok b
  | .vdate ms => .ok (String.mk (intChars ms))
  | .vstr s => .ok s
  | v =>
    match stringify (normalizePayload v) with
    | some s => .ok s
    | none => .error .typeError

/-- A JavaScript argument: `null`, `undefined` (absent), or a value.  Needed
because the source distinguishes `== null` (catches both) from `=== null`
(catches only `null`). -/
inductive JsArg (α : Type) where
  | jnull
  | jundef
  | val (a : α)

/-- Result of a deserializer call: the returned value (or thrown error),
together with the `logger.error` calls it made, as (message, context)
pairs. -/
structure JsOutcome where
  result : Except JsError Jval
  logs : List (String × String)

/-- `Number(parseFloat(text)) === container`: strict equality between a
number primitive and a `Buffer`/`Uint8Array` object is always false in
JavaScript (different types), so the guard at datatransform.ts:44 and :67 is
dead. -/
def numberStrictEqualsContainer : Bool := false

/-- `Transform.bufferToObject` (datatransform.ts:39-60).  `buffer == null`
catches both `null` and `undefined`; the dead numeric-equality guard would
return the buffer unchanged; empty decoded text returns `null`; otherwise
`JSON.parse` with a logged raw-string fallback. -/
def bufferToObject (buffer : JsArg String) : JsOutcome :=
  match buffer with
  | .jnull => ⟨.ok .vnull, []⟩
  | .jundef => ⟨.ok .vnull, []⟩
  | .val b =>
    if numberStrictEqualsContainer then ⟨.ok (.vbuf b), []⟩
    else
      let bufferString := b
      if bufferString.length ≤ 0 then ⟨.ok .vnull, []⟩
      else
        match parseJson bufferString with
        | some v => ⟨.ok v, []⟩
        | none => ⟨.ok (.vstr bufferString), [("Error parsing buffer to JSON", bufferString)]⟩

/-- `Array.prototype.toString` on a `Uint8Array` (which is what
`payload.toString()` resolves to — typed arrays do not override it): the
elements' decimal renderings joined with commas, NOT a UTF-8 decoding. -/
def arrJoin (bytes : List Nat) : String :=
  String.mk (joinComma (bytes.map (fun b => natChars b)))

/-- `Transform.uInt8ArrayToObject` (datatransform.ts:62-83).  `payload ===
null` catches only `null`: on `undefined` the subsequent
`payload.toString()` throws a `TypeError`.  The decoded text is the
comma-joined decimal rendering (`arrJoin`), not UTF-8 text. -/
def uInt8ArrayToObject (payload : JsArg (List Nat)) : JsOutcome :=
  match payload with
  | .jnull => ⟨.ok .vnull, []⟩
  | .jundef => ⟨.error .typeError, []⟩
  | .val bytes =>
    if numberStrictEqualsContainer then ⟨.ok (.vu8arr bytes), []⟩
    else
      let payloadString := arrJoin bytes
      if payloadString.length ≤ 0 then ⟨.ok .vnull, []⟩
      else
        match parseJson payloadString with
        | some v => ⟨.ok v, []⟩
        | none => ⟨.ok (.vstr payloadString), [("Error parsing Uint8Array to JSON", payloadString)]⟩

/-- JavaScript `WhiteSpace`/`LineTerminator` as skipped by `parseInt`
(restricted to the ASCII ones in the model). -/
def isJsWs (c : Char) : Bool :=
  c = ' ' || c = '\t' || c = '\n' || c = '\r' || c = Char.ofNat 11 || c = Char.ofNat 12

/-- Model of JavaScript `parseInt(s, 10)`: skip leading whitespace, accept an
optional sign, read the leading run of decimal digits; `none` models `NaN`
(no leading digit). -/
def jsParseInt (s : String) : Option Int :=
  let cs := s.data.dropWhile isJsWs
  match cs with
  | '-' :: rest =>
    let ds := rest.takeWhile Char.isDigit
    if ds.isEmpty then none else some (-(digitsToNat ds : Int))
  | '+' :: rest =>
    let ds := rest.takeWhile Char.isDigit
    if ds.isEmpty then none else some ((digitsToNat ds : Int))
  | rest =>
    let ds := rest.takeWhile Char.isDigit
    if ds.isEmpty then none else some ((digitsToNat ds : Int))

/-- Whether the decoded text matches `/\d+/` (contains at least one decimal
digit). -/
def hasDigit (s : String) : Bool := s.data.any Char.isDigit

/-- A JavaScript `Date`, by its time value: `some ms` for a valid date,
`none` for an Invalid Date (time `NaN`). -/
def JsDate := Option Int

/-- `Transform.bufferToDate` (datatransform.ts:93-111).  `buffer == null` →
`undefined` (outer `none`); empty decoded text → `undefined`; if the text
contains a digit run, `new Date(parseInt(bufferString, 10))` — an Invalid
Date when the digits are not leading; otherwise `undefined`. -/
def bufferToDate (buffer : JsArg String) : Option JsDate :=
  match buffer with
  | .jnull => none
  | .jundef => none
  | .val b =>
    let bufferString := b
    if bufferString.length ≤ 0 then none
    else if hasDigit bufferString then some (jsParseInt bufferString)
    else none

/-- `JSON.parse` with the source's raw-string fallback
(`try { JSON.parse(...) } catch { raw text }`), as inlined in the three
iterator drains. -/
def jsonOrRaw (s : String) : Jval :=
  match parseJson s with
  | some v => v
  | none => .vstr s

/-- One `next()` result of a fabric iterator: the `done` flag and, when
present, the yielded item (`res.value`). -/
structure NextRes (α : Type) where
  done : Bool
  value : Option α

/-- An item yielded to `iteratorToList`: only its `value` payload (a buffer,
modelled by its UTF-8 text) is read. -/
structure ListItem where
  value : String

/-- An item yielded to `iteratorToKVList`: a `key` and a `value` payload. -/
structure KVItem where
  key : String
  value : String

/-- An item yielded to `iteratorToHistoryList`: the `value` payload,
`isDelete`, `txId`, and the (possibly absent) `timestamp` metadata carrying
its `seconds` field. -/
structure HistItem where
  value : String
  isDelete : Bool
  txId : String
  timestamp : Option Int

/-- The `KV` record of `src/index.ts` as built by `iteratorToKVList`. -/
structure KV where
  key : String
  value : Jval

/-- The `KeyModificationItem` record of `src/index.ts` as built by
`iteratorToHistoryList`. -/
structure KeyModificationItem where
  is_delete : Bool
  value : Jval
  timestamp : Int
  tx_id : String

/-- The outcome of running a drain function against an iterator script:
normal return of the accumulated list, a propagated exception, or
`incomplete` — a model artifact meaning the script ended before the loop
asked for its next `next()` (the real call would still be awaiting). -/
inductive RunResult (β : Type) where
  | ok (xs : List β)
  | exn (e : JsError)
  | incomplete

/-- A drain run's outcome together with how many times `iterator.close()`
was invoked during it. -/
structure DrainOut (β : Type) where
  result : RunResult β
  closes : Nat

/-- The loop of `Transform.iteratorToList` (datatransform.ts:127-149), driven
by the script of successive `next()` outcomes.  Each iteration takes one
script entry; a throwing `next()` propagates with `close()` never reached; an
item is appended when `res.value` is truthy and its decoded payload text is
non-empty (`res.value && res.value.value.toString()`); on `done` the loop
exits, `close()` runs once, and the list is returned. -/
def iteratorToListGo : List (Except JsError (NextRes ListItem)) → List Jval → DrainOut Jval
  | [], _acc => ⟨.incomplete, 0⟩
  | .error e :: _, _acc => ⟨.exn e, 0⟩
  | .ok res :: rest, acc =>
    let acc' :=
      match res.value with
      | some item => if item.value.length > 0 then acc ++ [jsonOrRaw item.value] else acc
      | none => acc
    if res.done then ⟨.ok acc', 1⟩ else iteratorToListGo rest acc'

/-- `Transform.iteratorToList` on an iterator whose successive `next()`
outcomes are `script`. -/
def iteratorToList (script : List (Except JsError (NextRes ListItem))) : DrainOut Jval :=
  iteratorToListGo script []

/-- The loop of `Transform.iteratorToKVList` (datatransform.ts:157-180):
same control flow as `iteratorToListGo`, appending `{key, value}` records. -/
def iteratorToKVListGo : List (Except JsError (NextRes KVItem)) → List KV → DrainOut KV
  | [], _acc => ⟨.incomplete, 0⟩
  | .error e :: _, _acc => ⟨.exn e, 0⟩
  | .ok res :: rest, acc =>
    let acc' :=
      match res.value with
      | some item =>
        if item.value.length > 0 then acc ++ [⟨item.key, jsonOrRaw item.value⟩] else acc
      | none => acc
    if res.done then ⟨.ok acc', 1⟩ else iteratorToKVListGo rest acc'

/-- `Transform.iteratorToKVList` on an iterator whose successive `next()`
outcomes are `script`. -/
def iteratorToKVList (script : List (Except JsError (NextRes KVItem))) : DrainOut KV :=
  iteratorToKVListGo script []

/-- The loop of `Transform.iteratorToHistoryList` (datatransform.ts:188-219):
same control flow, but the record additionally copies `isDelete`, `txId` and
`res.value.timestamp.seconds` — and when the item's `timestamp` is absent,
reading `.seconds` of `undefined` throws a `TypeError` before the record is
appended. -/
def iteratorToHistoryListGo :
    List (Except JsError (NextRes HistItem)) → List KeyModificationItem →
    DrainOut KeyModificationItem
  | [], _acc => ⟨.incomplete, 0⟩
  | .error e :: _, _acc => ⟨.exn e, 0⟩
  | .ok res :: rest, acc =>
    match res.value with
    | some item =>
      if item.value.length > 0 then
        match item.timestamp with
        | none => ⟨.exn .typeError, 0⟩
        | some secs =>
          let acc' := acc ++ [⟨item.isDelete, jsonOrRaw item.value, secs, item.txId⟩]
          if res.done then ⟨.ok acc', 1⟩ else iteratorToHistoryListGo rest acc'
      else if res.done then ⟨.ok acc, 1⟩ else iteratorToHistoryListGo rest acc
    | none => if res.done then ⟨.ok acc, 1⟩ else iteratorToHistoryListGo rest acc

/-- `Transform.iteratorToHistoryList` on an iterator whose successive
`next()` outcomes are `script`. -/
def iteratorToHistoryList (script : List (Except JsError (NextRes HistItem))) :
    DrainOut KeyModificationItem :=
  iteratorToHistoryListGo script []

mutual

/-- A value is JSON-safe when it is built only from `null`, booleans,
numbers, strings, arrays and plain objects — no dates, buffers, byte arrays
or `undefined` anywhere. -/
def jsonSafe : Jval → Bool
  | .vnull => true
  | .vbool _ => true
  | .vnum _ => true
  | .vstr _ => true
  | .varr xs => jsonSafeList xs
  | .vobj kvs => jsonSafeKVs kvs
  | _ => false
termination_by structural v => v

def jsonSafeList : List Jval → Bool
  | [] => true
  | x :: xs => jsonSafe x && jsonSafeList xs
termination_by structural v => v

def jsonSafeKVs : List (String × Jval) → Bool
  | [] => true
  | (_, v) :: kvs => jsonSafe v && jsonSafeKVs kvs
termination_by structural v => v

end

mutual

/-- Fuel sufficient for `parseVal` to parse the rendering of a value:
1 for the `parseVal` unfolding itself, plus what the element/member loops
need below it. -/
def jfuel : Jval → Nat
  | .varr xs => 1 + jfuelList xs
  | .vobj kvs => 1 + jfuelKVs kvs
  | _ => 1
termination_by structural v => v

def jfuelList : List Jval → Nat
  | [] => 0
  | [x] => 1 + jfuel x
  | x :: xs => 1 + max (jfuel x) (jfuelList xs)
termination_by structural v => v

def jfuelKVs : List (String × Jval) → Nat
  | [] => 0
  | [(_, v)] => 1 + jfuel v
  | (_, v) :: kvs => 1 + max (jfuel v) (jfuelKVs kvs)
termination_by structural v => v

end

theorem digitChar_isDigit (n : Nat) : (digitChar n).isDigit = true := by
  rcases n with _|_|_|_|_|_|_|_|_|n <;> rfl

theorem digitChar_toNat (n : Nat) (h : n < 10) : (digitChar n).toNat = 48 + n := by
  rcases n with _|_|_|_|_|_|_|_|_|_|n <;> first | rfl | omega

theorem digitChar_ne_zero (n : Nat) (h0 : 0 < n) (h1 : n < 10) : digitChar n ≠ '0' := by
  rcases n with _|_|_|_|_|_|_|_|_|_|n <;> first | omega | decide

theorem natCharsAux_ne_nil (n : Nat) :
    ∀ fuel, n < fuel → natCharsAux fuel n ≠ [] := by
  induction n using Nat.strong_induction_on with
  | _ n ih =>
    intro fuel hf
    rcases fuel with _ | f
    · omega
    · rw [natCharsAux]
      split
      · simp
      · simp

theorem natChars_ne_nil (n : Nat) : natChars n ≠ [] :=
  natCharsAux_ne_nil n (n + 1) (by omega)

theorem natCharsAux_all_digits (n : Nat) :
    ∀ fuel, n < fuel → ∀ c ∈ natCharsAux fuel n, c.isDigit = true := by
  induction n using Nat.strong_induction_on with
  | _ n ih =>
    intro fuel hf
    rcases fuel with _ | f
    · omega
    · rw [natCharsAux]
      split
      · intro c hc
        simp only [List.mem_singleton] at hc
        subst hc
        exact digitChar_isDigit n
      · rename_i h
        intro c hc
        rcases List.mem_append.mp hc with hm | hm
        · exact ih (n / 10) (Nat.div_lt_self (by omega) (by omega)) f (by omega) c hm
        · simp only [List.mem_singleton] at hm
          subst hm
          exact digitChar_isDigit (n % 10)

theorem natChars_all_digits (n : Nat) : ∀ c ∈ natChars n, c.isDigit = true :=
  natCharsAux_all_digits n (n + 1) (by omega)

theorem natCharsAux_head_ne_zero (n : Nat) (hn : 0 < n) :
    ∀ fuel, n < fuel → ∀ c cs, natCharsAux fuel n = c :: cs → c ≠ '0' := by
  induction n using Nat.strong_induction_on with
  | _ n ih =>
    intro fuel hf
    rcases fuel with _ | f
    · omega
    · rw [natCharsAux]
      split
      · rename_i h
        intro c cs hc
        simp only [List.cons.injEq] at hc
        rcases hc with ⟨hc, -⟩
        subst hc
        exact digitChar_ne_zero n hn h
      · rename_i h
        intro c cs hc
        have hne := natCharsAux_ne_nil (n / 10) f (by omega)
        rcases hq : natCharsAux f (n / 10) with _ | ⟨c2, cs2⟩
        · exact absurd hq hne
        · rw [hq] at hc
          simp only [List.cons_append, List.cons.injEq] at hc
          rcases hc with ⟨hc, -⟩
          subst hc
          exact ih (n / 10) (Nat.div_lt_self (by omega) (by omega))
            (by omega) f (by omega) c2 cs2 hq

theorem natChars_head_ne_zero (n : Nat) (hn : 0 < n) :
    ∀ c cs, natChars n = c :: cs → c ≠ '0' :=
  natCharsAux_head_ne_zero n hn (n + 1) (by omega)

theorem foldl_digits_append (xs : List Char) (d : Char) (a : Nat) :
    (xs ++ [d]).foldl (fun a c => 10 * a + (c.toNat - 48)) a =
      10 * (xs.foldl (fun a c => 10 * a + (c.toNat - 48)) a) + (d.toNat - 48) := by
  rw [List.foldl_append]
  rfl

theorem digitsToNat_natCharsAux (n : Nat) :
    ∀ fuel, n < fuel → digitsToNat (natCharsAux fuel n) = n := by
  induction n using Nat.strong_induction_on with
  | _ n ih =>
    intro fuel hf
    rcases fuel with _ | f
    · omega
    · rw [natCharsAux]
      split
      · rename_i h
        show 10 * 0 + ((digitChar n).toNat - 48) = n
        rw [digitChar_toNat n h]
        omega
      · rename_i h
        unfold digitsToNat
        rw [foldl_digits_append]
        have hrec := ih (n / 10) (Nat.div_lt_self (by omega) (by omega)) f (by omega)
        unfold digitsToNat at hrec
        rw [hrec, digitChar_toNat (n % 10) (by omega)]
        omega

theorem digitsToNat_natChars (n : Nat) : digitsToNat (natChars n) = n :=
  digitsToNat_natCharsAux n (n + 1) (by omega)

/-- A decimal digit is none of the characters the parser dispatches on or
treats as whitespace or as a delimiter. -/
theorem digit_char_facts {c : Char} (h : c.isDigit = true) :
    c ≠ 'n' ∧ c ≠ 't' ∧ c ≠ 'f' ∧ c ≠ '"' ∧ c ≠ '[' ∧ c ≠ '\x7b' ∧ c ≠ '-' ∧
      isWsChar c = false ∧ c ≠ ']' ∧ c ≠ '\x7d' ∧ c ≠ ',' ∧ c ≠ ':' := by
  have hsp : c ≠ ' ' := fun he => by subst he; exact absurd h (by decide)
  have hta : c ≠ '\t' := fun he => by subst he; exact absurd h (by decide)
  have hnl : c ≠ '\n' := fun he => by subst he; exact absurd h (by decide)
  have hcr : c ≠ '\r' := fun he => by subst he; exact absurd h (by decide)
  refine ⟨?_, ?_, ?_, ?_, ?_, ?_, ?_, ?_, ?_, ?_, ?_, ?_⟩
  all_goals first
  | (intro he; subst he; exact absurd h (by decide))
  | simp [isWsChar, hsp, hta, hnl, hcr]

theorem takeWhile_digits_append (ds : List Char) (rest : List Char)
    (hds : ∀ c ∈ ds, c.isDigit = true)
    (hrest : ∀ c cs, rest = c :: cs → c.isDigit = false) :
    (ds ++ rest).takeWhile Char.isDigit = ds ∧
      (ds ++ rest).dropWhile Char.isDigit = rest := by
  induction ds with
  | nil =>
    simp only [List.nil_append, List.takeWhile, List.dropWhile]
    rcases rest with _ | ⟨c, cs⟩
    · exact ⟨rfl, rfl⟩
    · rw [List.takeWhile_cons, List.dropWhile_cons, hrest c cs rfl]
      exact ⟨rfl, rfl⟩
  | cons d ds ih =>
    have hd : d.isDigit = true := hds d (List.mem_cons_self d ds)
    have ih' := ih (fun c hc => hds c (List.mem_cons_of_mem d hc))
    simp only [List.cons_append, List.takeWhile_cons, List.dropWhile_cons, hd]
    simp only [if_true, List.cons.injEq, true_and]
    exact ⟨ih'.1, ih'.2⟩

theorem hexVal_hexChar (n : Nat) (h : n < 16) : hexVal? (hexChar n) = some n := by
  rcases n with _|_|_|_|_|_|_|_|_|_|_|_|_|_|_|_|n <;> first | decide | omega

theorem parseStringBody_escList (cs : List Char) :
    ∀ rest, parseStringBody (escList cs ++ '"' :: rest) = some (cs, rest) := by
  induction cs with
  | nil =>
    intro rest
    rw [escList, List.nil_append, parseStringBody.eq_def]
    simp
  | cons c cs ih =>
    intro rest
    rw [escList, List.append_assoc]
    unfold escapeChar
    split_ifs with h1 h2 h3 h4 h5 h6 h7 h8
    · subst h1; rw [parseStringBody.eq_def]; simp [ih]
    · subst h2; rw [parseStringBody.eq_def]; simp [ih]
    · subst h3; rw [parseStringBody.eq_def]; simp [ih]
    · subst h4; rw [parseStringBody.eq_def]; simp [ih]
    · subst h5; rw [parseStringBody.eq_def]; simp [ih]
    · subst h6; rw [parseStringBody.eq_def]; simp [ih]
    · subst h7; rw [parseStringBody.eq_def]; simp [ih]
    · simp only [List.cons_append, List.nil_append]
      rw [parseStringBody.eq_def]
      simp only [hexVal_hexChar (c.toNat / 16) (by omega),
        hexVal_hexChar (c.toNat % 16) (by omega)]
      have hc : ((0 * 16 + 0) * 16 + c.toNat / 16) * 16 + c.toNat % 16 = c.toNat := by
        omega
      simp [hc, Char.ofNat_toNat, ih, show hexVal? '0' = some 0 from by decide]
      rw [show c.toNat / 16 * 16 + c.toNat % 16 = c.toNat from by omega, Char.ofNat_toNat]
    · simp only [List.cons_append]
      rw [parseStringBody.eq_def]
      simp [h1, h2, h8, ih]

theorem skipWs_not_ws {c : Char} (h : isWsChar c = false) (cs : List Char) :
    skipWs (c :: cs) = c :: cs := by
  simp [skipWs, List.dropWhile_cons, h]

theorem joinComma_cons_ne (e : List Char) (es : List (List Char)) (hne : es ≠ []) :
    joinComma (e :: es) = e ++ ',' :: joinComma es := by
  cases es with
  | nil => exact absurd rfl hne
  | cons e2 es2 => rfl

theorem natChars_head (n : Nat) :
    ∃ c cs, natChars n = c :: cs ∧ c.isDigit = true := by
  rcases hq : natChars n with _ | ⟨c, cs⟩
  · exact absurd hq (natChars_ne_nil n)
  · exact ⟨c, cs, rfl, natChars_all_digits n c (hq ▸ List.mem_cons_self c cs)⟩

theorem jsonSafe_ne_undef {v : Jval} (h : jsonSafe v = true) : v ≠ .vundef := by
  intro he
  subst he
  exact absurd h (by decide)

theorem stringify_some (v : Jval) (h : v ≠ .vundef) :
    ∃ cs, stringifyChars v = some cs := by
  cases v with
  | vundef => exact absurd rfl h
  | vbool b => cases b <;> exact ⟨_, rfl⟩
  | _ => exact ⟨_, rfl⟩

/-- The rendering of any value starts with a non-whitespace character that is
not a closing bracket. -/
theorem stringify_head (v : Jval) (cs : List Char) (h : stringifyChars v = some cs) :
    ∃ c cs2, cs = c :: cs2 ∧ isWsChar c = false ∧ c ≠ ']' := by
  cases v with
  | vnull =>
    have hcs : cs = ['n', 'u', 'l', 'l'] := by simpa [stringifyChars] using h.symm
    subst hcs
    exact ⟨'n', _, rfl, by decide, by decide⟩
  | vundef => simp [stringifyChars] at h
  | vbool b =>
    cases b
    · have hcs : cs = ['f', 'a', 'l', 's', 'e'] := by simpa [stringifyChars] using h.symm
      subst hcs
      exact ⟨'f', _, rfl, by decide, by decide⟩
    · have hcs : cs = ['t', 'r', 'u', 'e'] := by simpa [stringifyChars] using h.symm
      subst hcs
      exact ⟨'t', _, rfl, by decide, by decide⟩
  | vnum n =>
    have hcs : cs = intChars n := by simpa [stringifyChars] using h.symm
    subst hcs
    unfold intChars
    split_ifs with hneg
    · exact ⟨'-', _, rfl, by decide, by decide⟩
    · obtain ⟨c, cs2, hq, hd⟩ := natChars_head n.toNat
      obtain ⟨-, -, -, -, -, -, -, hws, hrb, -, -, -⟩ := digit_char_facts hd
      exact ⟨c, cs2, hq, hws, hrb⟩
  | vstr s =>
    have hcs : cs = quoteChars s := by simpa [stringifyChars] using h.symm
    subst hcs
    exact ⟨'"', _, rfl, by decide, by decide⟩
  | varr xs =>
    have hcs : cs = '[' :: joinComma (arrElemsChars xs) ++ [']'] := by
      simpa [stringifyChars] using h.symm
    subst hcs
    exact ⟨'[', _, rfl, by decide, by decide⟩
  | vobj kvs =>
    have hcs : cs = '\x7b' :: joinComma (objEntriesChars kvs) ++ ['\x7d'] := by
      simpa [stringifyChars] using h.symm
    subst hcs
    exact ⟨'\x7b', _, rfl, by decide, by decide⟩
  | vdate ms =>
    have hcs : cs = quoteChars (String.mk ('d' :: 'a' :: 't' :: 'e' :: intChars ms)) := by
      simpa [stringifyChars] using h.symm
    subst hcs
    exact ⟨'"', _, rfl, by decide, by decide⟩
  | vbuf s =>
    have hcs : cs = '\x7b' :: (quoteChars "type" ++ ':' :: quoteChars "Buffer" ++
        ',' :: quoteChars "data" ++ ':' :: bytesArrayChars (utf8Encode s)) ++ ['\x7d'] := by
      simpa [stringifyChars] using h.symm
    subst hcs
    exact ⟨'\x7b', _, rfl, by decide, by decide⟩
  | vu8arr bytes =>
    have hcs : cs = '\x7b' :: joinComma ((byteEntries bytes).map
        (fun kv => quoteChars kv.1 ++ ':' ::
          (match kv.2 with | .vnum n => intChars n | _ => []))) ++ ['\x7d'] := by
      simpa [stringifyChars] using h.symm
    subst hcs
    exact ⟨'\x7b', _, rfl, by decide, by decide⟩

/-- A head-of-list predicate: the remainder does not begin with a decimal
digit, so that a number ending at the boundary is parsed whole. -/
def noDigitHead (rest : List Char) : Prop :=
  ∀ c cs, rest = c :: cs → c.isDigit = false

theorem parseNat_natChars (n : Nat) (rest : List Char) (hrest : noDigitHead rest) :
    ∀ c cs2, natChars n = c :: cs2 → parseNat c (cs2 ++ rest) = some (n, rest) := by
  intro c cs2 hq
  have hall : ∀ x ∈ c :: cs2, x.isDigit = true := by
    intro x hx
    exact natChars_all_digits n x (hq ▸ hx)
  have htk := takeWhile_digits_append (c :: cs2) rest hall
    (fun c2 cs3 he => hrest c2 cs3 he)
  unfold parseNat
  simp only [List.cons_append] at htk ⊢
  rw [htk.1, htk.2]
  have hnolead : ¬(1 < (c :: cs2).length ∧ (c :: cs2).head? = some '0') := by
    rintro ⟨hlen, hhead⟩
    simp only [List.head?_cons, Option.some.injEq] at hhead
    subst hhead
    rcases Nat.eq_zero_or_pos n with hn | hn
    · subst hn
      have : natChars 0 = ['0'] := by decide
      rw [this] at hq
      simp only [List.cons.injEq] at hq
      rcases hq with ⟨-, hq2⟩
      subst hq2
      simp at hlen
    · exact natChars_head_ne_zero n hn '0' cs2 hq rfl
  rw [if_neg hnolead]
  rw [← hq, digitsToNat_natChars]

theorem parseVal_intChars (n : Int) (fuel : Nat) (rest : List Char)
    (hrest : noDigitHead rest) :
    parseVal (fuel + 1) (intChars n ++ rest) = some (.vnum n, rest) := by
  unfold intChars
  split_ifs with hneg
  · -- negative: '-' then the digits of |n|
    obtain ⟨c, cs2, hq, hd⟩ := natChars_head n.natAbs
    rw [hq]
    rw [show ('-' :: c :: cs2) ++ rest = '-' :: (c :: cs2 ++ rest) from rfl]
    rw [parseVal.eq_2, skipWs_not_ws (by decide)]
    have hpn := parseNat_natChars n.natAbs rest hrest c cs2 hq
    simp [hd, hpn]
    rw [abs_of_neg hneg, neg_neg]
  · -- non-negative: just the digits of n.toNat
    obtain ⟨c, cs2, hq, hd⟩ := natChars_head n.toNat
    rw [hq]
    obtain ⟨hn1, hn2, hn3, hn4, hn5, hn6, hn7, hws, -, -, -, -⟩ := digit_char_facts hd
    rw [show (c :: cs2) ++ rest = c :: (cs2 ++ rest) from rfl]
    rw [parseVal.eq_2, skipWs_not_ws hws]
    have hpn := parseNat_natChars n.toNat rest hrest c cs2 hq
    simp [hn1, hn2, hn3, hn4, hn5, hn6, hn7, hd, hpn]
    omega

theorem noDigitHead_cons {c : Char} (h : c.isDigit = false) (tail : List Char) :
    noDigitHead (c :: tail) := by
  intro c2 cs2 he
  cases he
  exact h

theorem noDigitHead_nil : noDigitHead [] := by
  intro c cs h
  exact absurd h (by simp)

mutual

/-- Round trip: `parseVal` recovers any JSON-safe value from its
`stringifyChars` rendering, leaving the remainder untouched, given enough
fuel and a remainder that does not start with a digit. -/
theorem parseVal_rt (v : Jval) (hs : jsonSafe v = true) :
    ∀ fuel, jfuel v ≤ fuel → ∀ cs rest, stringifyChars v = some cs → noDigitHead rest →
      parseVal fuel (cs ++ rest) = some (v, rest) := by
  cases v with
  | vnull =>
    intro fuel hf cs rest hcs hrest
    have hcs2 : cs = ['n', 'u', 'l', 'l'] := by simpa [stringifyChars] using hcs.symm
    subst hcs2
    rcases fuel with _ | f
    · simp [jfuel] at hf
    · rw [show ['n', 'u', 'l', 'l'] ++ rest = 'n' :: ('u' :: 'l' :: 'l' :: rest) from rfl,
        parseVal.eq_2, skipWs_not_ws (by decide)]
      simp [expects]
  | vundef =>
    intro fuel hf cs rest hcs hrest
    simp [stringifyChars] at hcs
  | vbool b =>
    intro fuel hf cs rest hcs hrest
    rcases fuel with _ | f
    · simp [jfuel] at hf
    cases b
    · have hcs2 : cs = ['f', 'a', 'l', 's', 'e'] := by simpa [stringifyChars] using hcs.symm
      subst hcs2
      rw [show ['f', 'a', 'l', 's', 'e'] ++ rest = 'f' :: ('a' :: 'l' :: 's' :: 'e' :: rest)
          from rfl, parseVal.eq_2, skipWs_not_ws (by decide)]
      simp [expects]
    · have hcs2 : cs = ['t', 'r', 'u', 'e'] := by simpa [stringifyChars] using hcs.symm
      subst hcs2
      rw [show ['t', 'r', 'u', 'e'] ++ rest = 't' :: ('r' :: 'u' :: 'e' :: rest) from rfl,
        parseVal.eq_2, skipWs_not_ws (by decide)]
      simp [expects]
  | vnum n =>
    intro fuel hf cs rest hcs hrest
    have hcs2 : cs = intChars n := by simpa [stringifyChars] using hcs.symm
    subst hcs2
    rcases fuel with _ | f
    · simp [jfuel] at hf
    · exact parseVal_intChars n f rest hrest
  | vstr s =>
    intro fuel hf cs rest hcs hrest
    have hcs2 : cs = quoteChars s := by simpa [stringifyChars] using hcs.symm
    subst hcs2
    rcases fuel with _ | f
    · simp [jfuel] at hf
    · rw [show quoteChars s ++ rest = '"' :: (escList s.data ++ '"' :: rest) from by
          simp [quoteChars],
        parseVal.eq_2, skipWs_not_ws (by decide)]
      simp [parseStringBody_escList]
  | varr xs =>
    intro fuel hf cs rest hcs hrest
    have hcs2 : cs = '[' :: joinComma (arrElemsChars xs) ++ [']'] := by
      simpa [stringifyChars] using hcs.symm
    subst hcs2
    rcases fuel with _ | f
    · simp [jfuel] at hf
    cases xs with
    | nil =>
      rw [show ('[' :: joinComma (arrElemsChars []) ++ [']']) ++ rest = '[' :: (']' :: rest)
          from by simp [arrElemsChars, joinComma],
        parseVal.eq_2, skipWs_not_ws (by decide)]
      simp [skipWs, List.dropWhile_cons, isWsChar]
    | cons x xs2 =>
      have hsl : jsonSafeList (x :: xs2) = true := by simpa [jsonSafe] using hs
      have hx : jsonSafe x = true ∧ jsonSafeList xs2 = true := by
        simpa [jsonSafeList, Bool.and_eq_true] using hsl
      obtain ⟨csx, hcsx⟩ := stringify_some x (jsonSafe_ne_undef hx.1)
      obtain ⟨hc, tl, hcons, hws, hrb⟩ := stringify_head x csx hcsx
      have harr : arrElemsChars (x :: xs2) = csx :: arrElemsChars xs2 := by
        rw [arrElemsChars, hcsx]
      have hjoin : ∃ body, joinComma (arrElemsChars (x :: xs2)) = hc :: body ∧
          hc :: body = joinComma (arrElemsChars (x :: xs2)) := by
        rw [harr, hcons]
        cases arrElemsChars xs2 with
        | nil => exact ⟨tl, rfl, rfl⟩
        | cons e es => exact ⟨tl ++ ',' :: joinComma (e :: es), rfl, rfl⟩
      obtain ⟨body, hbody, -⟩ := hjoin
      rw [hbody]
      rw [show ('[' :: hc :: body ++ [']']) ++ rest = '[' :: (hc :: (body ++ ']' :: rest))
          from by simp,
        parseVal.eq_2, skipWs_not_ws (by decide)]
      have hfl : jfuelList (x :: xs2) ≤ f := by
        have : jfuel (.varr (x :: xs2)) = 1 + jfuelList (x :: xs2) := by rw [jfuel]
        omega
      have hpe := parseElems_rt (x :: xs2) (List.cons_ne_nil x xs2) hsl f hfl rest
      rw [hbody] at hpe
      rw [show (hc :: body) ++ ']' :: rest = hc :: (body ++ ']' :: rest) from rfl] at hpe
      simp [skipWs, List.dropWhile_cons, hws, hrb, hpe]
  | vobj kvs =>
    intro fuel hf cs rest hcs hrest
    have hcs2 : cs = '\x7b' :: joinComma (objEntriesChars kvs) ++ ['\x7d'] := by
      simpa [stringifyChars] using hcs.symm
    subst hcs2
    rcases fuel with _ | f
    · simp [jfuel] at hf
    cases kvs with
    | nil =>
      rw [show ('\x7b' :: joinComma (objEntriesChars []) ++ ['\x7d']) ++ rest =
          '\x7b' :: ('\x7d' :: rest) from by simp [objEntriesChars, joinComma],
        parseVal.eq_2, skipWs_not_ws (by decide)]
      simp [skipWs, List.dropWhile_cons, isWsChar]
    | cons kv kvs2 =>
      have hsl : jsonSafeKVs (kv :: kvs2) = true := by simpa [jsonSafe] using hs
      have hx : jsonSafe kv.2 = true ∧ jsonSafeKVs kvs2 = true := by
        rcases kv with ⟨k, v2⟩
        simpa [jsonSafeKVs, Bool.and_eq_true] using hsl
      obtain ⟨csv, hcsv⟩ := stringify_some kv.2 (jsonSafe_ne_undef hx.1)
      have hent : objEntriesChars (kv :: kvs2) =
          (quoteChars kv.1 ++ ':' :: csv) :: objEntriesChars kvs2 := by
        rcases kv with ⟨k, v2⟩
        rw [objEntriesChars]
        simp only at hcsv
        rw [hcsv]
      have hjoin : ∃ body, joinComma (objEntriesChars (kv :: kvs2)) = '"' :: body ∧
          '"' :: body = joinComma (objEntriesChars (kv :: kvs2)) := by
        rw [hent]
        cases objEntriesChars kvs2 with
        | nil =>
          refine ⟨escList kv.1.data ++ ['"'] ++ ':' :: csv, ?_, ?_⟩ <;>
            simp [joinComma, quoteChars]
        | cons e es =>
          refine ⟨escList kv.1.data ++ ['"'] ++ ':' :: csv ++
            ',' :: joinComma (e :: es), ?_, ?_⟩ <;> simp [joinComma, quoteChars]
      obtain ⟨body, hbody, -⟩ := hjoin
      rw [hbody]
      rw [show ('\x7b' :: '"' :: body ++ ['\x7d']) ++ rest =
          '\x7b' :: ('"' :: (body ++ '\x7d' :: rest)) from by simp,
        parseVal.eq_2, skipWs_not_ws (by decide)]
      have hfl : jfuelKVs (kv :: kvs2) ≤ f := by
        have : jfuel (.vobj (kv :: kvs2)) = 1 + jfuelKVs (kv :: kvs2) := by rw [jfuel]
        omega
      have hpm := parseMembers_rt (kv :: kvs2) (List.cons_ne_nil kv kvs2) hsl f hfl rest
      rw [hbody] at hpm
      rw [show ('"' :: body) ++ '\x7d' :: rest = '"' :: (body ++ '\x7d' :: rest) from rfl] at hpm
      simp [skipWs, List.dropWhile_cons, isWsChar, hpm]
  | vdate ms =>
    intro fuel hf cs rest hcs hrest
    simp [jsonSafe] at hs
  | vbuf s =>
    intro fuel hf cs rest hcs hrest
    simp [jsonSafe] at hs
  | vu8arr bytes =>
    intro fuel hf cs rest hcs hrest
    simp [jsonSafe] at hs
termination_by structural v

/-- Round trip for non-empty array bodies. -/
theorem parseElems_rt (xs : List Jval) (hne : xs ≠ []) (hs : jsonSafeList xs = true) :
    ∀ fuel, jfuelList xs ≤ fuel → ∀ rest,
      parseElems fuel (joinComma (arrElemsChars xs) ++ ']' :: rest) = some (xs, rest) := by
  cases xs with
  | nil => exact absurd rfl hne
  | cons x xs2 =>
    intro fuel hf rest
    have hx : jsonSafe x = true ∧ jsonSafeList xs2 = true := by
      simpa [jsonSafeList, Bool.and_eq_true] using hs
    obtain ⟨csx, hcsx⟩ := stringify_some x (jsonSafe_ne_undef hx.1)
    cases xs2 with
    | nil =>
      rcases fuel with _ | f
      · simp [jfuelList] at hf
      have hjc : joinComma (arrElemsChars [x]) = csx := by
        rw [arrElemsChars, hcsx, arrElemsChars, joinComma]
      rw [hjc, parseElems.eq_2]
      have hfx : jfuel x ≤ f := by
        have : jfuelList [x] = 1 + jfuel x := by rw [jfuelList]
        omega
      rw [parseVal_rt x hx.1 f hfx csx (']' :: rest) hcsx
        (noDigitHead_cons (by decide) rest)]
      simp [skipWs, List.dropWhile_cons, isWsChar]
    | cons y ys =>
      rcases fuel with _ | f
      · simp [jfuelList] at hf
      have harr : arrElemsChars (x :: y :: ys) = csx :: arrElemsChars (y :: ys) := by
        rw [arrElemsChars, hcsx]
      have hjc : joinComma (arrElemsChars (x :: y :: ys)) =
          csx ++ ',' :: joinComma (arrElemsChars (y :: ys)) := by
        rw [harr]
        exact joinComma_cons_ne _ _ (by rw [arrElemsChars]; simp)
      rw [hjc, parseElems.eq_2]
      have hfb : jfuel x ≤ f ∧ jfuelList (y :: ys) ≤ f := by
        have : jfuelList (x :: y :: ys) = 1 + max (jfuel x) (jfuelList (y :: ys)) := by
          simp [jfuelList]
        have h2 := Nat.le_max_left (jfuel x) (jfuelList (y :: ys))
        have h3 := Nat.le_max_right (jfuel x) (jfuelList (y :: ys))
        omega
      rw [show (csx ++ ',' :: joinComma (arrElemsChars (y :: ys))) ++ ']' :: rest =
          csx ++ ',' :: (joinComma (arrElemsChars (y :: ys)) ++ ']' :: rest) from by simp]
      rw [parseVal_rt x hx.1 f hfb.1 csx _ hcsx (noDigitHead_cons (by decide) _)]
      have hpe := parseElems_rt (y :: ys) (List.cons_ne_nil y ys) hx.2 f hfb.2 rest
      simp [skipWs, List.dropWhile_cons, isWsChar, hpe]
termination_by structural xs

/-- Round trip for non-empty object bodies. -/
theorem parseMembers_rt (kvs : List (String × Jval)) (hne : kvs ≠ [])
    (hs : jsonSafeKVs kvs = true) :
    ∀ fuel, jfuelKVs kvs ≤ fuel → ∀ rest,
      parseMembers fuel (joinComma (objEntriesChars kvs) ++ '\x7d' :: rest) =
        some (kvs, rest) := by
  cases kvs with
  | nil => exact absurd rfl hne
  | cons kv kvs2 =>
    intro fuel hf rest
    rcases kv with ⟨k, v⟩
    have hx : jsonSafe v = true ∧ jsonSafeKVs kvs2 = true := by
      simpa [jsonSafeKVs, Bool.and_eq_true] using hs
    obtain ⟨csv, hcsv⟩ := stringify_some v (jsonSafe_ne_undef hx.1)
    have hent : objEntriesChars ((k, v) :: kvs2) =
        (quoteChars k ++ ':' :: csv) :: objEntriesChars kvs2 := by
      rw [objEntriesChars, hcsv]
    cases kvs2 with
    | nil =>
      rcases fuel with _ | f
      · simp [jfuelKVs] at hf
      have hjc : joinComma (objEntriesChars [(k, v)]) = quoteChars k ++ ':' :: csv := by
        rw [hent, objEntriesChars, joinComma]
      rw [hjc, parseMembers.eq_2]
      rw [show (quoteChars k ++ ':' :: csv) ++ '\x7d' :: rest =
          '"' :: (escList k.data ++ '"' :: (':' :: (csv ++ '\x7d' :: rest))) from by
          simp [quoteChars]]
      rw [skipWs_not_ws (by decide)]
      have hfx : jfuel v ≤ f := by
        have : jfuelKVs [(k, v)] = 1 + jfuel v := by rw [jfuelKVs]
        omega
      have hpv := parseVal_rt v hx.1 f hfx csv ('\x7d' :: rest) hcsv
        (noDigitHead_cons (by decide) rest)
      simp [parseStringBody_escList, skipWs, List.dropWhile_cons, isWsChar, hpv]
    | cons kv2 kvs3 =>
      rcases fuel with _ | f
      · simp [jfuelKVs] at hf
      have hjc : joinComma (objEntriesChars ((k, v) :: kv2 :: kvs3)) =
          (quoteChars k ++ ':' :: csv) ++
            ',' :: joinComma (objEntriesChars (kv2 :: kvs3)) := by
        rw [hent]
        refine joinComma_cons_ne _ _ ?_
        rcases kv2 with ⟨k2, v2⟩
        have hx2 : jsonSafe v2 = true := by
          have := hx.2
          simp [jsonSafeKVs, Bool.and_eq_true] at this
          exact this.1
        obtain ⟨csv2, hcsv2⟩ := stringify_some v2 (jsonSafe_ne_undef hx2)
        rw [objEntriesChars, hcsv2]
        simp
      rw [hjc, parseMembers.eq_2]
      rw [show ((quoteChars k ++ ':' :: csv) ++
            ',' :: joinComma (objEntriesChars (kv2 :: kvs3))) ++ '\x7d' :: rest =
          '"' :: (escList k.data ++ '"' :: (':' :: (csv ++
            ',' :: (joinComma (objEntriesChars (kv2 :: kvs3)) ++ '\x7d' :: rest)))) from by
          simp [quoteChars]]
      rw [skipWs_not_ws (by decide)]
      have hfb : jfuel v ≤ f ∧ jfuelKVs (kv2 :: kvs3) ≤ f := by
        have : jfuelKVs ((k, v) :: kv2 :: kvs3) =
            1 + max (jfuel v) (jfuelKVs (kv2 :: kvs3)) := by simp [jfuelKVs]
        have h2 := Nat.le_max_left (jfuel v) (jfuelKVs (kv2 :: kvs3))
        have h3 := Nat.le_max_right (jfuel v) (jfuelKVs (kv2 :: kvs3))
        omega
      have hpv := parseVal_rt v hx.1 f hfb.1 csv
        (',' :: (joinComma (objEntriesChars (kv2 :: kvs3)) ++ '\x7d' :: rest)) hcsv
        (noDigitHead_cons (by decide) _)
      have hpm := parseMembers_rt (kv2 :: kvs3) (List.cons_ne_nil kv2 kvs3) hx.2 f hfb.2 rest
      simp [parseStringBody_escList, skipWs, List.dropWhile_cons, isWsChar, hpv, hpm]
termination_by structural kvs

end

mutual

/-- The fuel `parseJson` provides (text length + 1) suffices: a value's fuel
requirement is bounded by the length of its rendering plus one. -/
theorem jfuel_le (v : Jval) (hs : jsonSafe v = true) :
    ∀ cs, stringifyChars v = some cs → jfuel v ≤ cs.length + 1 := by
  cases v with
  | varr xs =>
    intro cs hcs
    have hcs2 : cs = '[' :: joinComma (arrElemsChars xs) ++ [']'] := by
      simpa [stringifyChars] using hcs.symm
    subst hcs2
    cases xs with
    | nil => simp [jfuel, jfuelList]
    | cons x xs2 =>
      have hsl : jsonSafeList (x :: xs2) = true := by simpa [jsonSafe] using hs
      have hB := jfuelList_le (x :: xs2) (List.cons_ne_nil x xs2) hsl
      have hj : jfuel (.varr (x :: xs2)) = 1 + jfuelList (x :: xs2) := by simp [jfuel]
      simp only [List.length_cons, List.length_append, List.length_singleton] at *
      omega
  | vobj kvs =>
    intro cs hcs
    have hcs2 : cs = '\x7b' :: joinComma (objEntriesChars kvs) ++ ['\x7d'] := by
      simpa [stringifyChars] using hcs.symm
    subst hcs2
    cases kvs with
    | nil => simp [jfuel, jfuelKVs]
    | cons kv kvs2 =>
      have hsl : jsonSafeKVs (kv :: kvs2) = true := by simpa [jsonSafe] using hs
      have hB := jfuelKVs_le (kv :: kvs2) (List.cons_ne_nil kv kvs2) hsl
      have hj : jfuel (.vobj (kv :: kvs2)) = 1 + jfuelKVs (kv :: kvs2) := by simp [jfuel]
      simp only [List.length_cons, List.length_append, List.length_singleton] at *
      omega
  | vnull => intro cs hcs; simp [jfuel]
  | vundef => intro cs hcs; simp [stringifyChars] at hcs
  | vbool b => intro cs hcs; simp [jfuel]
  | vnum n => intro cs hcs; simp [jfuel]
  | vstr s => intro cs hcs; simp [jfuel]
  | vdate ms => intro cs hcs; simp [jfuel]
  | vbuf s => intro cs hcs; simp [jfuel]
  | vu8arr bytes => intro cs hcs; simp [jfuel]
termination_by structural v

theorem jfuelList_le (xs : List Jval) (hne : xs ≠ []) (hs : jsonSafeList xs = true) :
    jfuelList xs ≤ (joinComma (arrElemsChars xs)).length + 2 := by
  cases xs with
  | nil => exact absurd rfl hne
  | cons x xs2 =>
    have hx : jsonSafe x = true ∧ jsonSafeList xs2 = true := by
      simpa [jsonSafeList, Bool.and_eq_true] using hs
    obtain ⟨csx, hcsx⟩ := stringify_some x (jsonSafe_ne_undef hx.1)
    have hA := jfuel_le x hx.1 csx hcsx
    cases xs2 with
    | nil =>
      have hjc : joinComma (arrElemsChars [x]) = csx := by
        rw [arrElemsChars, hcsx, arrElemsChars, joinComma]
      rw [hjc]
      have hj : jfuelList [x] = 1 + jfuel x := by rw [jfuelList]
      omega
    | cons y ys =>
      have hB := jfuelList_le (y :: ys) (List.cons_ne_nil y ys) hx.2
      have hjc : joinComma (arrElemsChars (x :: y :: ys)) =
          csx ++ ',' :: joinComma (arrElemsChars (y :: ys)) := by
        rw [arrElemsChars, hcsx]
        exact joinComma_cons_ne _ _ (by rw [arrElemsChars]; simp)
      rw [hjc]
      have hj : jfuelList (x :: y :: ys) = 1 + max (jfuel x) (jfuelList (y :: ys)) := by
        simp [jfuelList]
      simp only [List.length_append, List.length_cons]
      omega
termination_by structural xs

theorem jfuelKVs_le (kvs : List (String × Jval)) (hne : kvs ≠ [])
    (hs : jsonSafeKVs kvs = true) :
    jfuelKVs kvs ≤ (joinComma (objEntriesChars kvs)).length + 2 := by
  cases kvs with
  | nil => exact absurd rfl hne
  | cons kv kvs2 =>
    rcases kv with ⟨k, v⟩
    have hx : jsonSafe v = true ∧ jsonSafeKVs kvs2 = true := by
      simpa [jsonSafeKVs, Bool.and_eq_true] using hs
    obtain ⟨csv, hcsv⟩ := stringify_some v (jsonSafe_ne_undef hx.1)
    have hA := jfuel_le v hx.1 csv hcsv
    have hent : objEntriesChars ((k, v) :: kvs2) =
        (quoteChars k ++ ':' :: csv) :: objEntriesChars kvs2 := by
      rw [objEntriesChars, hcsv]
    cases kvs2 with
    | nil =>
      have hjc : joinComma (objEntriesChars [(k, v)]) = quoteChars k ++ ':' :: csv := by
        rw [hent, objEntriesChars, joinComma]
      rw [hjc]
      have hj : jfuelKVs [(k, v)] = 1 + jfuel v := by rw [jfuelKVs]
      simp only [List.length_append, List.length_cons]
      omega
    | cons kv2 kvs3 =>
      have hB := jfuelKVs_le (kv2 :: kvs3) (List.cons_ne_nil kv2 kvs3) hx.2
      have hjc : joinComma (objEntriesChars ((k, v) :: kv2 :: kvs3)) =
          (quoteChars k ++ ':' :: csv) ++
            ',' :: joinComma (objEntriesChars (kv2 :: kvs3)) := by
        rw [hent]
        refine joinComma_cons_ne _ _ ?_
        rcases kv2 with ⟨k2, v2⟩
        have hx2 : jsonSafe v2 = true := by
          have := hx.2
          simp [jsonSafeKVs, Bool.and_eq_true] at this
          exact this.1
        obtain ⟨csv2, hcsv2⟩ := stringify_some v2 (jsonSafe_ne_undef hx2)
        rw [objEntriesChars, hcsv2]
        simp
      rw [hjc]
      have hj : jfuelKVs ((k, v) :: kv2 :: kvs3) =
          1 + max (jfuel v) (jfuelKVs (kv2 :: kvs3)) := by simp [jfuelKVs]
      simp only [List.length_append, List.length_cons]
      omega
termination_by structural kvs

end

mutual

/-- Normalization is the identity on JSON-safe values (no dates, buffers or
`undefined` anywhere to rewrite). -/
theorem normalizePayload_id (v : Jval) (hs : jsonSafe v = true) :
    normalizePayload v = v := by
  cases v with
  | varr xs =>
    have hsl : jsonSafeList xs = true := by simpa [jsonSafe] using hs
    rw [normalizePayload, normalizeList_id xs hsl]
  | vobj kvs =>
    have hsl : jsonSafeKVs kvs = true := by simpa [jsonSafe] using hs
    rw [normalizePayload, normalizeKVs_id kvs hsl]
  | vnull => rfl
  | vundef => rfl
  | vbool b => rfl
  | vnum n => rfl
  | vstr s => rfl
  | vdate ms => simp [jsonSafe] at hs
  | vbuf s => simp [jsonSafe] at hs
  | vu8arr bytes => simp [jsonSafe] at hs
termination_by structural v

theorem normalizeList_id (xs : List Jval) (hs : jsonSafeList xs = true) :
    normalizeList xs = xs := by
  cases xs with
  | nil => rfl
  | cons x xs2 =>
    have hx : jsonSafe x = true ∧ jsonSafeList xs2 = true := by
      simpa [jsonSafeList, Bool.and_eq_true] using hs
    rw [normalizeList, normalizePayload_id x hx.1, normalizeList_id xs2 hx.2]
termination_by structural xs

theorem normalizeKVs_id (kvs : List (String × Jval)) (hs : jsonSafeKVs kvs = true) :
    normalizeKVs kvs = kvs := by
  cases kvs with
  | nil => rfl
  | cons kv kvs2 =>
    rcases kv with ⟨k, v⟩
    have hx : jsonSafe v = true ∧ jsonSafeKVs kvs2 = true := by
      simpa [jsonSafeKVs, Bool.and_eq_true] using hs
    rw [normalizeKVs, normalizePayload_id v hx.1, normalizeKVs_id kvs2 hx.2]
termination_by structural kvs

end

/-- `JSON.parse` undoes `JSON.stringify` on JSON-safe values. -/
theorem parseJson_stringify (v : Jval) (hs : jsonSafe v = true) (cs : List Char)
    (hcs : stringifyChars v = some cs) : parseJson (String.mk cs) = some v := by
  unfold parseJson
  have hdata : (String.mk cs).data = cs := rfl
  have hlen : (String.mk cs).length = cs.length := rfl
  rw [hdata, hlen]
  have hrt := parseVal_rt v hs (cs.length + 1) (jfuel_le v hs cs hcs) cs [] hcs
    noDigitHead_nil
  rw [List.append_nil] at hrt
  rw [hrt]
  simp [skipWs]

theorem strLength_pos (s : String) (h : s ≠ "") : 0 < s.length := by
  rcases s with ⟨data⟩
  cases data with
  | nil => exact absurd rfl h
  | cons c cs => simp [String.length]

/-- The close count of `iteratorToListGo` is determined by how the run
ended: 1 on normal return, 0 when an exception escaped or the script ran
out. -/
theorem iteratorToListGo_closes (script : List (Except JsError (NextRes ListItem))) :
    ∀ acc, (iteratorToListGo script acc).closes =
      match (iteratorToListGo script acc).result with
      | .ok _ => 1
      | _ => 0 := by
  induction script with
  | nil => intro acc; rfl
  | cons e rest ih =>
    intro acc
    cases e with
    | error e2 => rfl
    | ok res =>
      rw [iteratorToListGo]
      by_cases hd : res.done
      · simp [hd]
      · simp [hd, ih]

theorem iteratorToKVListGo_closes (script : List (Except JsError (NextRes KVItem))) :
    ∀ acc, (iteratorToKVListGo script acc).closes =
      match (iteratorToKVListGo script acc).result with
      | .ok _ => 1
      | _ => 0 := by
  induction script with
  | nil => intro acc; rfl
  | cons e rest ih =>
    intro acc
    cases e with
    | error e2 => rfl
    | ok res =>
      rw [iteratorToKVListGo]
      by_cases hd : res.done
      · simp [hd]
      · simp [hd, ih]

theorem iteratorToHistoryListGo_closes
    (script : List (Except JsError (NextRes HistItem))) :
    ∀ acc, (iteratorToHistoryListGo script acc).closes =
      match (iteratorToHistoryListGo script acc).result with
      | .ok _ => 1
      | _ => 0 := by
  induction script with
  | nil => intro acc; rfl
  | cons e rest ih =>
    intro acc
    cases e with
    | error e2 => rfl
    | ok res =>
      rw [iteratorToHistoryListGo]
      cases hrv : res.value with
      | none =>
        by_cases hd : res.done
        · simp [hd]
        · simp [hd, ih]
      | some item =>
        by_cases hv : item.value.length > 0
        · cases hts : item.timestamp with
          | none => simp [hv, hts]
          | some secs =>
            by_cases hd : res.done
            · simp [hv, hts, hd]
            · simp [hv, hts, hd, ih]
        · by_cases hd : res.done
          · simp [hv, hd]
          · simp [hv, hd, ih]

/-- A run of the history drain that reaches an item with a non-empty payload
but no timestamp throws a `TypeError` with `close()` never invoked, whatever
was accumulated before. -/
theorem iteratorToHistoryListGo_missing_ts (item : HistItem) (hv : item.value ≠ "")
    (ht : item.timestamp = none) (rest : List (Except JsError (NextRes HistItem))) :
    ∀ pre, (∀ e ∈ pre, ∃ r, e = .ok r ∧ r.done = false) → ∀ acc,
      iteratorToHistoryListGo (pre ++ .ok ⟨false, some item⟩ :: rest) acc =
        ⟨.exn .typeError, 0⟩ := by
  intro pre
  induction pre with
  | nil =>
    intro _ acc
    rw [List.nil_append, iteratorToHistoryListGo]
    have hlen : item.value.length > 0 := strLength_pos item.value hv
    simp [hlen, ht]
  | cons e pre2 ih =>
    intro hpre acc
    obtain ⟨r, he, hdone⟩ := hpre e (List.mem_cons_self e pre2)
    subst he
    have hpre2 : ∀ e ∈ pre2, ∃ r, e = .ok r ∧ r.done = false :=
      fun e2 h2 => hpre e2 (List.mem_cons_of_mem _ h2)
    rw [List.cons_append, iteratorToHistoryListGo]
    cases hrv : r.value with
    | none => simp [hdone, ih hpre2]
    | some item2 =>
      by_cases h2 : item2.value.length > 0
      · cases hts : item2.timestamp with
        | none => simp [h2, hts]
        | some secs => simp [h2, hts, hdone, ih hpre2]
      · simp [h2, hdone, ih hpre2]

theorem normalizePayload_ne_undef (v : Jval) (h : v ≠ .vundef) :
    normalizePayload v ≠ .vundef := by
  cases v with
  | vundef => exact absurd rfl h
  | vnull => intro he; exact Jval.noConfusion he
  | vbool b => simp [normalizePayload]
  | vnum n => simp [normalizePayload]
  | vstr s => simp [normalizePayload]
  | varr xs => simp [normalizePayload]
  | vobj kvs => simp [normalizePayload]
  | vdate ms => simp [normalizePayload]
  | vbuf s => simp [normalizePayload]
  | vu8arr bytes => simp [normalizePayload]

theorem normalizeList_map (xs : List Jval) :
    normalizeList xs = xs.map normalizePayload := by
  induction xs with
  | nil => rfl
  | cons x xs2 ih => rw [normalizeList, ih, List.map_cons]

theorem normalizeKVs_map (kvs : List (String × Jval)) :
    normalizeKVs kvs = kvs.map (fun kv => (kv.1, normalizePayload kv.2)) := by
  induction kvs with
  | nil => rfl
  | cons kv kvs2 ih =>
    rcases kv with ⟨k, v⟩
    rw [normalizeKVs, ih, List.map_cons]

/-- Claim C1, counterexample: the round trip fails on the JSON-safe,
non-date-bearing string `"123"` — `serialize` emits its bytes unquoted, and
the deserializer then JSON-parses them back as the number `123`, not the
string. -/
theorem c1_counterexample :
    serialize (.vstr "123") = .ok "123" ∧
      (bufferToObject (.val "123")).result = .ok (.vnum 123) ∧
      Jval.vnum 123 ≠ .vstr "123" :=
  ⟨rfl, rfl, fun h => Jval.noConfusion h⟩

/-- Claim C1 (amended): for every non-date-bearing JSON-safe value that is
not a string, deserializing (`bufferToObject`) the result of `serialize`
yields the value back, with no error logged.  (Strings are serialized
unquoted, so they round-trip only when their own text is not itself
parseable JSON.) -/
theorem c1_theorem (v : Jval) (hsafe : jsonSafe v = true) (hnstr : isStringV v = false) :
    ∃ s, serialize v = .ok s ∧ bufferToObject (.val s) = ⟨.ok v, []⟩ := by
  obtain ⟨cs, hcs⟩ := stringify_some v (jsonSafe_ne_undef hsafe)
  have hid := normalizePayload_id v hsafe
  have hser : serialize v = .ok (String.mk cs) := by
    cases v with
    | vstr s => simp [isStringV] at hnstr
    | vdate ms => simp [jsonSafe] at hsafe
    | vbuf s => simp [jsonSafe] at hsafe
    | vu8arr bytes => simp [jsonSafe] at hsafe
    | vundef => simp [jsonSafe] at hsafe
    | vnull => simp [serialize, stringify, hid, hcs]
    | vbool b => simp [serialize, stringify, hid, hcs]
    | vnum n => simp [serialize, stringify, hid, hcs]
    | varr xs => simp [serialize, stringify, hid, hcs]
    | vobj kvs => simp [serialize, stringify, hid, hcs]
  refine ⟨String.mk cs, hser, ?_⟩
  obtain ⟨c, cs2, hcons, -, -⟩ := stringify_head v cs hcs
  have hlen : ¬((String.mk cs).length ≤ 0) := by
    have h1 : (String.mk cs).length = cs.length := rfl
    rw [h1, hcons]
    simp
  have hnil : cs ≠ [] := by
    rw [hcons]
    simp
  have hp := parseJson_stringify v hsafe cs hcs
  simp [bufferToObject, numberStrictEqualsContainer, hlen, hnil, hp]

/-- Claim C1, witness at the object value `{a: 1}`. -/
theorem c1_witness :
    ∃ s, serialize (.vobj [("a", .vnum 1)]) = .ok s ∧
      bufferToObject (.val s) = ⟨.ok (.vobj [("a", .vnum 1)]), []⟩ :=
  c1_theorem (.vobj [("a", .vnum 1)]) (by decide) (by decide)

/-- Claim C2, counterexample: on an iterator whose first `next()` throws, the
drain propagates the error and `close()` is invoked zero times, not once —
the guaranteed-release contract does not hold of this code. -/
theorem c2_counterexample :
    (iteratorToList [.error (.err "boom")]).result = .exn (.err "boom") ∧
      (iteratorToList [.error (.err "boom")]).closes = 0 :=
  ⟨rfl, rfl⟩

/-- Claim C2 (amended): for each of the three drain functions, on every run
that returns normally the accumulated list is returned after `close()` was
invoked exactly once; when an intermediate `next()` raises, the error
propagates and `close()` is never invoked (zero times). -/
theorem c2_theorem :
    (∀ (script : List (Except JsError (NextRes ListItem))) (xs : List Jval),
      (iteratorToList script).result = .ok xs → (iteratorToList script).closes = 1) ∧
    (∀ (script : List (Except JsError (NextRes ListItem))) (e : JsError),
      (iteratorToList script).result = .exn e → (iteratorToList script).closes = 0) ∧
    (∀ (script : List (Except JsError (NextRes KVItem))) (xs : List KV),
      (iteratorToKVList script).result = .ok xs → (iteratorToKVList script).closes = 1) ∧
    (∀ (script : List (Except JsError (NextRes KVItem))) (e : JsError),
      (iteratorToKVList script).result = .exn e → (iteratorToKVList script).closes = 0) ∧
    (∀ (script : List (Except JsError (NextRes HistItem))) (xs : List KeyModificationItem),
      (iteratorToHistoryList script).result = .ok xs →
        (iteratorToHistoryList script).closes = 1) ∧
    (∀ (script : List (Except JsError (NextRes HistItem))) (e : JsError),
      (iteratorToHistoryList script).result = .exn e →
        (iteratorToHistoryList script).closes = 0) := by
  refine ⟨?_, ?_, ?_, ?_, ?_, ?_⟩ <;> intro script a h
  · rw [iteratorToList] at h ⊢
    rw [iteratorToListGo_closes, h]
  · rw [iteratorToList] at h ⊢
    rw [iteratorToListGo_closes, h]
  · rw [iteratorToKVList] at h ⊢
    rw [iteratorToKVListGo_closes, h]
  · rw [iteratorToKVList] at h ⊢
    rw [iteratorToKVListGo_closes, h]
  · rw [iteratorToHistoryList] at h ⊢
    rw [iteratorToHistoryListGo_closes, h]
  · rw [iteratorToHistoryList] at h ⊢
    rw [iteratorToHistoryListGo_closes, h]

/-- Claim C2, witness: draining three valued items followed by a
done-without-value signal closes exactly once (and, per the `rfl` hypothesis
discharge, returns the 3-element list). -/
theorem c2_witness :
    (iteratorToList [.ok ⟨false, some ⟨"\"a\""⟩⟩, .ok ⟨false, some ⟨"1"⟩⟩,
        .ok ⟨false, some ⟨"x"⟩⟩, .ok ⟨true, none⟩]).closes = 1 :=
  c2_theorem.1 _ [.vstr "a", .vnum 1, .vstr "x"] (by rfl)

/-- Claim C3, counterexample: the empty (but non-null) input decodes to the
empty text, which is not valid JSON, yet the deserializer returns `null` —
not the raw decoded text — and logs nothing. -/
theorem c3_counterexample :
    parseJson "" = none ∧ bufferToObject (.val "") = ⟨.ok .vnull, []⟩ ∧
      Jval.vnull ≠ .vstr "" :=
  ⟨rfl, rfl, fun h => Jval.noConfusion h⟩

/-- Claim C3 (amended): for every non-null input with NON-EMPTY decoded text
that is not valid JSON, both deserializer entry points return (never raise)
the raw decoded text as a string with exactly one `logger.error` call; when
the decoded text is valid JSON they return the parsed structure and log
nothing. -/
theorem c3_theorem :
    (∀ s : String, s ≠ "" → parseJson s = none →
      bufferToObject (.val s) =
        ⟨.ok (.vstr s), [("Error parsing buffer to JSON", s)]⟩) ∧
    (∀ (s : String) (v : Jval), parseJson s = some v →
      bufferToObject (.val s) = ⟨.ok v, []⟩) ∧
    (∀ bs : List Nat, arrJoin bs ≠ "" → parseJson (arrJoin bs) = none →
      uInt8ArrayToObject (.val bs) =
        ⟨.ok (.vstr (arrJoin bs)), [("Error parsing Uint8Array to JSON", arrJoin bs)]⟩) ∧
    (∀ (bs : List Nat) (v : Jval), parseJson (arrJoin bs) = some v →
      uInt8ArrayToObject (.val bs) = ⟨.ok v, []⟩) := by
  refine ⟨?_, ?_, ?_, ?_⟩
  · intro s hne hp
    have hl : ¬(s.length ≤ 0) := by
      have := strLength_pos s hne
      omega
    simp [bufferToObject, numberStrictEqualsContainer, hl, hp]
  · intro s v hp
    have hne : s ≠ "" := by
      intro he
      subst he
      rw [show parseJson "" = none from rfl] at hp
      exact Option.noConfusion hp
    have hl : ¬(s.length ≤ 0) := by
      have := strLength_pos s hne
      omega
    simp [bufferToObject, numberStrictEqualsContainer, hl, hp]
  · intro bs hne hp
    have hl : ¬((arrJoin bs).length ≤ 0) := by
      have := strLength_pos _ hne
      omega
    simp [uInt8ArrayToObject, numberStrictEqualsContainer, hl, hp]
  · intro bs v hp
    have hne : arrJoin bs ≠ "" := by
      intro he
      rw [he, show parseJson "" = none from rfl] at hp
      exact Option.noConfusion hp
    have hl : ¬((arrJoin bs).length ≤ 0) := by
      have := strLength_pos _ hne
      omega
    simp [uInt8ArrayToObject, numberStrictEqualsContainer, hl, hp]

/-- Claim C3, witness at the text `not json`. -/
theorem c3_witness :
    bufferToObject (.val "not json") =
      ⟨.ok (.vstr "not json"), [("Error parsing buffer to JSON", "not json")]⟩ :=
  c3_theorem.1 "not json" (by decide) (by rfl)

/-- Claim C4, counterexample: on the byte content of `"hi"` the two entry
points disagree — `bufferToObject` decodes UTF-8 text while
`uInt8ArrayToObject` produces the comma-joined decimal rendering
(`Uint8Array` inherits `Array.prototype.toString`). -/
theorem c4_counterexample :
    utf8Encode "hi" = [104, 105] ∧
      (bufferToObject (.val "hi")).result = .ok (.vstr "hi") ∧
      (uInt8ArrayToObject (.val [104, 105])).result = .ok (.vstr "104,105") ∧
      Jval.vstr "104,105" ≠ .vstr "hi" := by
  refine ⟨rfl, rfl, rfl, ?_⟩
  intro h
  injection h with h2
  exact absurd h2 (by decide)

/-- Claim C4 (amended): the two entry points apply the same three-stage
semantics (null input → null, empty decoded text → null, JSON-parse with
logged raw-text fallback) but to DIFFERENT decodings of the byte content —
UTF-8 text for the buffer entry, comma-joined decimals for the byte-array
entry — so they return equal results exactly when those decoded texts
coincide (in particular on null input and on empty content), not for every
byte content. -/
theorem c4_theorem :
    (∀ (bs : List Nat) (s : String), arrJoin bs = s →
      (uInt8ArrayToObject (.val bs)).result = (bufferToObject (.val s)).result) ∧
    uInt8ArrayToObject .jnull = bufferToObject .jnull := by
  constructor
  · intro bs s hdec
    subst hdec
    by_cases hl : (arrJoin bs).length ≤ 0
    · simp [uInt8ArrayToObject, bufferToObject, numberStrictEqualsContainer, hl]
    · cases hp : parseJson (arrJoin bs) with
      | none =>
        simp [uInt8ArrayToObject, bufferToObject, numberStrictEqualsContainer, hl, hp]
      | some v =>
        simp [uInt8ArrayToObject, bufferToObject, numberStrictEqualsContainer, hl, hp]
  · rfl

/-- Claim C4, witness at the empty byte content (decodings coincide). -/
theorem c4_witness :
    (uInt8ArrayToObject (.val [])).result = (bufferToObject (.val "")).result :=
  c4_theorem.1 [] "" rfl

/-- Claim C5, counterexample: `serialize(undefined)` throws —
`JSON.stringify(undefined)` is `undefined` and `Buffer.from(undefined)`
raises a `TypeError`. -/
theorem c5_counterexample : serialize .vundef = .error .typeError := rfl

/-- Claim C5 (amended): `serialize` accepts every modelled value EXCEPT
top-level `undefined` and returns a byte sequence without raising. -/
theorem c5_theorem (v : Jval) (h : v ≠ .vundef) : ∃ s, serialize v = .ok s := by
  cases v with
  | vundef => exact absurd rfl h
  | vbuf b => exact ⟨b, rfl⟩
  | vdate ms => exact ⟨String.mk (intChars ms), by simp [serialize]⟩
  | vstr s => exact ⟨s, by simp [serialize]⟩
  | vnull =>
    obtain ⟨cs, hcs⟩ := stringify_some (normalizePayload .vnull)
      (normalizePayload_ne_undef _ h)
    exact ⟨String.mk cs, by simp [serialize, stringify, hcs]⟩
  | vbool b =>
    obtain ⟨cs, hcs⟩ := stringify_some (normalizePayload (.vbool b))
      (normalizePayload_ne_undef _ h)
    exact ⟨String.mk cs, by simp [serialize, stringify, hcs]⟩
  | vnum n =>
    obtain ⟨cs, hcs⟩ := stringify_some (normalizePayload (.vnum n))
      (normalizePayload_ne_undef _ h)
    exact ⟨String.mk cs, by simp [serialize, stringify, hcs]⟩
  | varr xs =>
    obtain ⟨cs, hcs⟩ := stringify_some (normalizePayload (.varr xs))
      (normalizePayload_ne_undef _ h)
    exact ⟨String.mk cs, by simp [serialize, stringify, hcs]⟩
  | vobj kvs =>
    obtain ⟨cs, hcs⟩ := stringify_some (normalizePayload (.vobj kvs))
      (normalizePayload_ne_undef _ h)
    exact ⟨String.mk cs, by simp [serialize, stringify, hcs]⟩
  | vu8arr bytes =>
    obtain ⟨cs, hcs⟩ := stringify_some (normalizePayload (.vu8arr bytes))
      (normalizePayload_ne_undef _ h)
    exact ⟨String.mk cs, by simp [serialize, stringify, hcs]⟩

/-- Claim C5, witness at `null`. -/
theorem c5_witness : ∃ s, serialize .vnull = .ok s :=
  c5_theorem .vnull (fun h => Jval.noConfusion h)

/-- Claim C6: `normalizePayload` satisfies the reference clauses, with the
date case taking precedence: a date maps to its epoch-millisecond integer, a
string is unchanged, an array maps recursively element-wise, a plain object
maps recursively value-wise with identical keys, and other scalars (null,
undefined, numbers, booleans) are unchanged. -/
theorem c6_theorem :
    (∀ ms : Int, normalizePayload (.vdate ms) = .vnum ms) ∧
    (∀ s : String, normalizePayload (.vstr s) = .vstr s) ∧
    (∀ xs : List Jval, normalizePayload (.varr xs) = .varr (xs.map normalizePayload)) ∧
    (∀ kvs : List (String × Jval), normalizePayload (.vobj kvs) =
      .vobj (kvs.map (fun kv => (kv.1, normalizePayload kv.2)))) ∧
    normalizePayload .vnull = .vnull ∧
    normalizePayload .vundef = .vundef ∧
    (∀ n : Int, normalizePayload (.vnum n) = .vnum n) ∧
    (∀ b : Bool, normalizePayload (.vbool b) = .vbool b) := by
  refine ⟨fun ms => rfl, fun s => rfl, ?_, ?_, rfl, rfl, ?_, ?_⟩
  · intro xs
    rw [normalizePayload, normalizeList_map]
  · intro kvs
    rw [normalizePayload, normalizeKVs_map]
  · intro n
    simp [normalizePayload]
  · intro b
    simp [normalizePayload]

/-- Claim C7: `serialize` returns a value that is already a byte sequence
(`value instanceof Buffer`) unchanged. -/
theorem c7_theorem (b : String) : serialize (.vbuf b) = .ok b := rfl

/-- Claim C8, counterexample: the byte-array entry point uses the strict
check `payload === null`, so an absent (`undefined`) input is not caught and
the subsequent `payload.toString()` throws a `TypeError` instead of
returning `null`. -/
theorem c8_counterexample :
    uInt8ArrayToObject .jundef = ⟨.error .typeError, []⟩ ∧
      (Except.error .typeError : Except JsError Jval) ≠ .ok .vnull :=
  ⟨rfl, fun h => Except.noConfusion h⟩

/-- Claim C8 (amended): both entry points return `null` for `null` input and
for input whose decoded text is empty; `bufferToObject` (which tests
`== null`) also returns `null` for absent (`undefined`) input, while
`uInt8ArrayToObject` (which tests `=== null`) raises a `TypeError` there. -/
theorem c8_theorem :
    bufferToObject .jnull = ⟨.ok .vnull, []⟩ ∧
    bufferToObject .jundef = ⟨.ok .vnull, []⟩ ∧
    uInt8ArrayToObject .jnull = ⟨.ok .vnull, []⟩ ∧
    (∀ s : String, s.length = 0 → bufferToObject (.val s) = ⟨.ok .vnull, []⟩) ∧
    (∀ bs : List Nat, (arrJoin bs).length = 0 →
      uInt8ArrayToObject (.val bs) = ⟨.ok .vnull, []⟩) := by
  refine ⟨rfl, rfl, rfl, ?_, ?_⟩
  · intro s hl
    simp [bufferToObject, numberStrictEqualsContainer, hl]
  · intro bs hl
    simp [uInt8ArrayToObject, numberStrictEqualsContainer, hl]

/-- Claim C8, witness at the empty text. -/
theorem c8_witness : bufferToObject (.val "") = ⟨.ok .vnull, []⟩ :=
  c8_theorem.2.2.2.1 "" rfl

/-- Claim C9, counterexample: on `"abc123"` (which contains a digit run, but
not a leading one) `bufferToDate` returns `new Date(parseInt("abc123", 10))`
= an Invalid Date — neither `undefined` nor the date of the digit run
`123`. -/
theorem c9_counterexample :
    bufferToDate (.val "abc123") = some none ∧
      (some none : Option JsDate) ≠ none ∧
      (some none : Option JsDate) ≠ some (some 123) := by
  refine ⟨rfl, ?_, ?_⟩
  · intro h
    exact Option.noConfusion h
  · intro h
    exact Option.noConfusion (Option.some.inj h)

/-- Claim C9 (amended): `bufferToDate` returns `undefined` for null, absent
or empty input and for text with no digits; for text containing a digit run
it returns `new Date(parseInt(text, 10))` — the epoch-millisecond date when
the digit run is leading (e.g. `"1609459200000"`), an Invalid Date
otherwise. -/
theorem c9_theorem :
    bufferToDate .jnull = none ∧
    bufferToDate .jundef = none ∧
    (∀ s : String, s.length = 0 → bufferToDate (.val s) = none) ∧
    (∀ s : String, s.length ≠ 0 → hasDigit s = true →
      bufferToDate (.val s) = some (jsParseInt s)) ∧
    (∀ s : String, s.length ≠ 0 → hasDigit s = false → bufferToDate (.val s) = none) ∧
    bufferToDate (.val "1609459200000") = some (some 1609459200000) := by
  refine ⟨rfl, rfl, ?_, ?_, ?_, rfl⟩
  · intro s hl
    simp [bufferToDate, hl]
  · intro s hl hd
    simp [bufferToDate, hl, hd]
  · intro s hl hd
    simp [bufferToDate, hl, hd]

/-- Claim C9, witness at the text `42`. -/
theorem c9_witness : bufferToDate (.val "42") = some (some 42) :=
  (c9_theorem.2.2.2.1 "42" (by decide) (by decide)).trans rfl

/-- Claim C10: if an iterator yields (after any prefix of successful
not-done `next()` results) a not-done item with a non-empty value payload
but an absent timestamp, `iteratorToHistoryList` throws a `TypeError`
(reading `.seconds` of `undefined`) — no record is appended, no list is
returned, and `close()` is never invoked. -/
theorem c10_theorem (pre : List (Except JsError (NextRes HistItem)))
    (hpre : ∀ e ∈ pre, ∃ r, e = .ok r ∧ r.done = false)
    (item : HistItem) (hv : item.value ≠ "") (ht : item.timestamp = none)
    (rest : List (Except JsError (NextRes HistItem))) :
    iteratorToHistoryList (pre ++ .ok ⟨false, some item⟩ :: rest) =
      ⟨.exn .typeError, 0⟩ := by
  rw [iteratorToHistoryList]
  exact iteratorToHistoryListGo_missing_ts item hv ht rest pre hpre []

/-- Claim C10, witness: one not-done item with payload `"v"` and no
timestamp. -/
theorem c10_witness :
    iteratorToHistoryList [.ok ⟨false, some ⟨"v", false, "tx1", none⟩⟩] =
      ⟨.exn .typeError, 0⟩ :=
  c10_theorem [] (by simp) ⟨"v", false, "tx1", none⟩ (by decide) rfl []
